import Mathlib

/-!
# Monte Carlo estimation of pi: verification of `main.go`

A shallow embedding of the Go program `main.go` and proofs about it.

Conventions of the embedding

* `int64` values are integers (`Int`); every `int64` addition, subtraction and
  multiplication of the source is followed by `wrap64`, the two's complement
  reduction into `[-2^63, 2^63)`.
* `*big.Rat` values are rationals (`Rat`); `big.NewRat` panics on a zero
  denominator, which is the result `none`.
* The channel `inC` is the list of the values the aggregator receives, in the
  order of receipt; a receive on an exhausted list never completes (`none`).
* The clock is an input: each pass of the aggregator loop is given the value of
  `elapsed.Nanoseconds()` and the reading of `time.Now()` it stores.
* `float64` values are the rationals they denote; every `float64`
  multiplication and addition of the source is followed by `round64`, the
  IEEE 754 binary64 rounding (to nearest, ties to even). Go lets a compiler
  fuse a product with the following sum into one operation with one rounding;
  the way the target does it is the parameter `Fusion`.
* The random source of a worker is the list of the values `rand.Float64()`
  returns, in the order of the calls.
-/

namespace Pi

/-! ## Machine integers -/

/-- Two's complement reduction of an integer into the `int64` range. -/
def wrap64 (x : Int) : Int := Int.bmod x 18446744073709551616

/-- The `int64` range. -/
def isInt64 (x : Int) : Prop := -9223372036854775808 ≤ x ∧ x ≤ 9223372036854775807

instance (x : Int) : Decidable (isInt64 x) := by
  unfold isInt64; exact inferInstance

/-! ## `math/big` rationals -/

/-- Go `big.NewRat(a, b)`: the rational `a/b`; panics when `b == 0`. -/
def NewRat (a b : Int) : Option Rat :=
  if b = 0 then none else some (Rat.divInt a b)

/-! ## `pi` (main.go, lines 114-121) -/

/-- Go `pi(in, total)`. -/
def pi (in_ : Int) (total : Int) : Option Rat := do
  let total := if total = 0 then 1 else total
  let pi ← NewRat in_ total
  let four ← NewRat 4 1
  some (pi * four)

/-! ## `previousIterations` and `sumPreviousIterations` (lines 21-31, 123-131) -/

/-- The compiled-in table `previousIterations`; each entry is `[in, total]`. -/
def previousIterations : List (List Int) :=
  [ [321228337250, 409000000000],
    [4398286571, 5600000000],
    [13194656076, 16800000000],
    [16964658903, 21600000000],
    [258867190854, 329600000000],
    [131318464019, 167200000000],
    [69115044519, 88000000000] ]

/-- The `for _, item := range previousIterations` loop, with the two
accumulators made explicit. `item[0]` and `item[1]` panic when the entry is
too short. -/
def sumLoop : List (List Int) → Int → Int → Option (Int × Int)
  | [], inSum, totalSum => some (inSum, totalSum)
  | item :: rest, inSum, totalSum => do
    let a ← item[0]?
    let inSum := wrap64 (inSum + a)
    let b ← item[1]?
    let totalSum := wrap64 (totalSum + b)
    sumLoop rest inSum totalSum

/-- Go `sumPreviousIterations()`, the global table taken as an argument. -/
def sumPreviousIterations (prev : List (List Int)) : Option (Int × Int) :=
  sumLoop prev 0 0

/-- A Prior Run Record given as pairs, laid out as the table is: `[in, total]`. -/
def ofPairs (record : List (Int × Int)) : List (List Int) :=
  record.map (fun e => [e.1, e.2])

/-! ## `calcParallel` (lines 38-92) -/

/-- The local variables of `calcParallel` that live across loop passes. -/
structure AggState where
  in_ : Int
  total : Int
  runIn : Int
  runTotal : Int
  checkpointPi : Rat
  checkpointTotal : Int
  checkpointTime : Int
  deriving DecidableEq

/-- Clock readings of one loop pass: `elapsed.Nanoseconds()` of line 75 and
the `time.Now()` of line 88. -/
structure Tick where
  elapsed : Int
  now : Int
  deriving DecidableEq

/-- The values printed by one loop pass (the timestamp left out). -/
structure Report where
  pi : Rat
  deltaPi : Rat
  in_ : Int
  total : Int
  runIn : Int
  runTotal : Int
  throughput : Rat
  deriving DecidableEq

/-- Lines 39-51: clamping of the arguments and the initial checkpoint. -/
def calcParallelInit (in_ total now : Int) : Option AggState := do
  let in_ := if in_ < 0 then 0 else in_
  let total := if total < 0 then 0 else total
  let runIn := 0
  let runTotal := 0
  let checkpointPi ← pi in_ total
  let checkpointTotal := total
  let checkpointTime := now
  some { in_, total, runIn, runTotal, checkpointPi, checkpointTotal, checkpointTime }

/-- Lines 64-68: `parallelism` receives from `inC`, each added to `in` and
`runIn`. The first argument counts the passes still to run. -/
def collect : Nat → List Int → AggState → Option (AggState × List Int)
  | 0, inC, s => some (s, inC)
  | _ + 1, [], _ => none
  | n + 1, part :: inC, s =>
    collect n inC { s with in_ := wrap64 (s.in_ + part), runIn := wrap64 (s.runIn + part) }

/-- Lines 69-71: `total` and `runTotal` advance by `syncEvery * int64(parallelism)`. -/
def advanceTotal (syncEvery : Int) (parallelism : Nat) (s : AggState) : AggState :=
  let part := wrap64 (syncEvery * wrap64 parallelism)
  { s with total := wrap64 (s.total + part), runTotal := wrap64 (s.runTotal + part) }

/-- Lines 64-71: the collect phase of one aggregation cycle. -/
def collectPhase (syncEvery : Int) (parallelism : Nat) (inC : List Int) (s : AggState) :
    Option (AggState × List Int) := do
  let (s, inC) ← collect parallelism inC s
  some (advanceTotal syncEvery parallelism s, inC)

/-- Lines 76-77: the throughput of one loop pass. -/
def throughput (total checkpointTotal elapsedNs : Int) : Option Rat := do
  let throughput ← NewRat (wrap64 (total - checkpointTotal)) elapsedNs
  let k ← NewRat 1000000 1
  some (throughput * k)

/-- Lines 79-81: the absolute difference to the checkpoint estimate. -/
def deltaPi (pi checkpointPi : Rat) : Option Rat := do
  let _ ← NewRat 0 1
  some (abs (pi - checkpointPi))

/-- Lines 73-90: the report phase of one aggregation cycle. -/
def reportPhase (t : Tick) (s : AggState) : Option (AggState × Report) := do
  let p ← pi s.in_ s.total
  let thr ← throughput s.total s.checkpointTotal t.elapsed
  let d ← deltaPi p s.checkpointPi
  let line : Report :=
    { pi := p, deltaPi := d, in_ := s.in_, total := s.total,
      runIn := s.runIn, runTotal := s.runTotal, throughput := thr }
  some ({ s with checkpointTime := t.now, checkpointPi := p, checkpointTotal := s.total }, line)

/-- Lines 64-90: one pass of the outer `for` loop. -/
def loopBody (syncEvery : Int) (parallelism : Nat) (t : Tick) (inC : List Int) (s : AggState) :
    Option (AggState × List Int × Report) := do
  let (s, inC) ← collectPhase syncEvery parallelism inC s
  let (s, line) ← reportPhase t s
  some (s, inC, line)

/-- Lines 63-91: as many passes of the outer `for` loop as there are clock
readings; the result is the state, what is left of the channel and the lines
printed, oldest first. -/
def loop (syncEvery : Int) (parallelism : Nat) :
    List Tick → List Int → AggState → Option (AggState × List Int × List Report)
  | [], inC, s => some (s, inC, [])
  | t :: ts, inC, s => do
    let (s, inC, line) ← loopBody syncEvery parallelism t inC s
    let (s, inC, lines) ← loop syncEvery parallelism ts inC s
    some (s, inC, line :: lines)

/-- Go `calcParallel(in, total)` with the batch size as a parameter, run for
`ticks.length` passes; `parallelism` is the value of `runtime.NumCPU()`. -/
def calcParallelWith (syncEvery : Int) (parallelism : Nat) (in_ total now : Int)
    (ticks : List Tick) (inC : List Int) : Option (AggState × List Int × List Report) := do
  let s ← calcParallelInit in_ total now
  loop syncEvery parallelism ticks inC s

/-- Go `calcParallel(in, total)`: the batch size is `100_000_000`. -/
def calcParallel (parallelism : Nat) (in_ total now : Int)
    (ticks : List Tick) (inC : List Int) : Option (AggState × List Int × List Report) :=
  calcParallelWith 100000000 parallelism in_ total now ticks inC

/-- Go `main()`. -/
def main (parallelism : Nat) (now : Int) (ticks : List Tick) (inC : List Int) :
    Option (AggState × List Int × List Report) := do
  let (in_, total) ← sumPreviousIterations previousIterations
  calcParallel parallelism in_ total now ticks inC

/-! ## `float64` arithmetic -/

/-- The counters of the aggregator are consistent: `0 ≤ in ≤ total` and
`0 ≤ runIn ≤ runTotal`. -/
def CountsOk (s : AggState) : Prop :=
  0 ≤ s.in_ ∧ s.in_ ≤ s.total ∧ 0 ≤ s.runIn ∧ s.runIn ≤ s.runTotal

instance (s : AggState) : Decidable (CountsOk s) := by
  unfold CountsOk; exact inferInstance

/-- The four counters of the state hold `int64` values. -/
def Int64Counters (s : AggState) : Prop :=
  isInt64 s.in_ ∧ isInt64 s.total ∧ isInt64 s.runIn ∧ isInt64 s.runTotal

instance (s : AggState) : Decidable (Int64Counters s) := by
  unfold Int64Counters; exact inferInstance

/-- The state is at a checkpoint: `checkpointPi` is the estimate of the
current pair `(in, total)`. -/
def AtCheckpoint (s : AggState) : Prop :=
  pi s.in_ s.total = some s.checkpointPi

/-- The rational `4*in/d`, with `d = total` when `total ≠ 0` and `d = 1`
otherwise: the value of `pi(in, total)`, see `pi_eq`. -/
def piValue (in_ total : Int) : Rat :=
  4 * (in_ : Rat) / ((if total = 0 then 1 else total : Int) : Rat)

/-! # Theorems -/

/-! ## Machine integers and rationals -/

theorem wrap64_add_left (a b : Int) : wrap64 (wrap64 a + b) = wrap64 (a + b) := by
  unfold wrap64; exact Int.bmod_add_bmod_congr

theorem wrap64_add_right (a b : Int) : wrap64 (a + wrap64 b) = wrap64 (a + b) := by
  unfold wrap64; exact Int.add_bmod_bmod

theorem wrap64_mul_right (a b : Int) : wrap64 (a * wrap64 b) = wrap64 (a * b) := by
  unfold wrap64; exact Int.mul_bmod_bmod

theorem wrap64_sub_left (a b : Int) : wrap64 (wrap64 a - b) = wrap64 (a - b) := by
  unfold wrap64; exact Int.bmod_sub_bmod_congr

theorem wrap64_of_isInt64 {x : Int} (h : isInt64 x) : wrap64 x = x := by
  unfold isInt64 at h
  unfold wrap64 Int.bmod
  simp only [Nat.cast_ofNat]
  split <;> omega

theorem isInt64_wrap64 (x : Int) : isInt64 (wrap64 x) := by
  unfold isInt64 wrap64 Int.bmod
  simp only [Nat.cast_ofNat]
  split <;> omega

theorem NewRat_of_ne {a b : Int} (h : b ≠ 0) : NewRat a b = some ((a : ℚ) / (b : ℚ)) := by
  simp [NewRat, h, Rat.divInt_eq_div]

theorem pi_eq (in_ total : Int) :
    pi in_ total = some (4 * (in_ : ℚ) / ((if total = 0 then 1 else total : Int) : ℚ)) := by
  have h4 : NewRat 4 1 = some 4 := by simp [NewRat]
  by_cases h : total = 0
  · subst h
    simp [pi, h4, NewRat, Rat.divInt_eq_div, mul_comm]
  · simp [pi, h4, NewRat, h, Rat.divInt_eq_div]
    ring

/-- C1. For every pair of integers `(in, total)`, in particular every pair of
64-bit integers, `pi(in, total)` returns (it does not panic) exactly the
rational `4*in/d`, where `d = total` when `total` is not `0` and `d = 1` when
`total` is `0`; in particular for `0 ≤ in ≤ total` with `total > 0` the result
is exactly the rational `4*in/total`. -/
theorem pi_exact (in_ total : Int) :
    pi in_ total = some (4 * (in_ : ℚ) / ((if total = 0 then 1 else total : Int) : ℚ)) ∧
    (0 ≤ in_ → in_ ≤ total → 0 < total → pi in_ total = some (4 * (in_ : ℚ) / (total : ℚ))) := by
  refine ⟨pi_eq in_ total, fun _ _ ht => ?_⟩
  rw [pi_eq, if_neg (by omega)]

theorem pi_exact_witness :
    pi 3 8 = some (4 * ((3 : Int) : ℚ) / (((if (8 : Int) = 0 then 1 else 8 : Int)) : ℚ)) ∧
    pi 3 8 = some (4 * ((3 : Int) : ℚ) / ((8 : Int) : ℚ)) :=
  ⟨(pi_exact 3 8).1, (pi_exact 3 8).2 (by decide) (by decide) (by decide)⟩

/-- C2 (as stated, refuted). `pi(1, 0)` does not fail, and it is `4`, not `0`. -/
theorem pi_zero_total_counterexample : pi 1 0 = some 4 ∧ pi 1 0 ≠ some 0 := by
  have h : pi 1 0 = some 4 := by rw [pi_eq]; norm_num
  exact ⟨h, by rw [h]; norm_num⟩

/-- C2 (amended). For every integer `in`, `pi(in, 0)` does not fail: the zero
denominator is replaced by `1` and the result is the rational `4*in`, which is
`0` exactly when `in = 0`. -/
theorem pi_zero_total (in_ : Int) :
    pi in_ 0 = some (4 * (in_ : ℚ)) ∧ (pi in_ 0 = some 0 ↔ in_ = 0) := by
  have h : pi in_ 0 = some (4 * (in_ : ℚ)) := by rw [pi_eq]; simp
  refine ⟨h, ?_⟩
  rw [h]
  simp

/-! ## `sumPreviousIterations` -/

theorem sumLoop_ofPairs (record : List (Int × Int)) :
    ∀ a b : Int, isInt64 a → isInt64 b →
      sumLoop (ofPairs record) a b =
        some (wrap64 (a + (record.map Prod.fst).sum), wrap64 (b + (record.map Prod.snd).sum)) := by
  induction record with
  | nil =>
    intro a b ha hb
    simp [ofPairs, sumLoop, wrap64_of_isInt64 ha, wrap64_of_isInt64 hb]
  | cons e rest ih =>
    intro a b _ _
    have h := ih (wrap64 (a + e.1)) (wrap64 (b + e.2)) (isInt64_wrap64 _) (isInt64_wrap64 _)
    simp only [ofPairs] at h
    simp only [ofPairs, List.map_cons, sumLoop, List.sum_cons]
    simp only [List.getElem?_cons_zero, List.getElem?_cons_succ, Option.bind_eq_bind,
      Option.some_bind, h, wrap64_add_left, add_assoc]

theorem isInt64_zero : isInt64 0 := by decide

theorem sumPreviousIterations_ofPairs (record : List (Int × Int)) :
    sumPreviousIterations (ofPairs record) =
      some (wrap64 (record.map Prod.fst).sum, wrap64 (record.map Prod.snd).sum) := by
  unfold sumPreviousIterations
  rw [sumLoop_ofPairs record 0 0 isInt64_zero isInt64_zero]
  simp

/-- C4. For every Prior Run Record (a list of `(in, total)` pairs),
`sumPreviousIterations` returns the pair (sum of all `in` values, sum of all
`total` values): the sums are the `int64` sums the code computes, that is the
integer sums reduced by `wrap64`, and they are the integer sums themselves
whenever these lie in the `int64` range. The function only reads the record
(it is a function of it and returns nothing but the two sums). Over the empty
record it returns `(0, 0)`; over `[(2,4),(1,4)]` it returns `(3, 8)`, and
`pi(3, 8) = 12/8 = 3/2`. -/
theorem sumPreviousIterations_sums (record : List (Int × Int)) :
    sumPreviousIterations (ofPairs record) =
        some (wrap64 (record.map Prod.fst).sum, wrap64 (record.map Prod.snd).sum) ∧
    (isInt64 (record.map Prod.fst).sum → isInt64 (record.map Prod.snd).sum →
      sumPreviousIterations (ofPairs record) =
        some ((record.map Prod.fst).sum, (record.map Prod.snd).sum)) ∧
    sumPreviousIterations (ofPairs []) = some (0, 0) ∧
    sumPreviousIterations (ofPairs [(2, 4), (1, 4)]) = some (3, 8) ∧
    pi 3 8 = some (12 / 8) ∧ pi 3 8 = some (3 / 2) := by
  refine ⟨sumPreviousIterations_ofPairs record, fun h1 h2 => ?_, by decide, by decide, ?_, ?_⟩
  · rw [sumPreviousIterations_ofPairs, wrap64_of_isInt64 h1, wrap64_of_isInt64 h2]
  · rw [pi_eq]; norm_num
  · rw [pi_eq]; norm_num

theorem sumPreviousIterations_sums_witness :
    isInt64 (([(2, 4), (1, 4)] : List (Int × Int)).map Prod.fst).sum ∧
    isInt64 (([(2, 4), (1, 4)] : List (Int × Int)).map Prod.snd).sum ∧
    sumPreviousIterations (ofPairs [(2, 4), (1, 4)]) =
      some ((([(2, 4), (1, 4)] : List (Int × Int)).map Prod.fst).sum,
        (([(2, 4), (1, 4)] : List (Int × Int)).map Prod.snd).sum) :=
  ⟨by decide, by decide,
    (sumPreviousIterations_sums [(2, 4), (1, 4)]).2.1 (by decide) (by decide)⟩


/-! ## The collect phase -/

theorem collect_eq : ∀ (n : Nat) (inC : List Int) (s : AggState),
    isInt64 s.in_ → isInt64 s.runIn → n ≤ inC.length →
    collect n inC s =
      some ({ s with in_ := wrap64 (s.in_ + (inC.take n).sum),
                     runIn := wrap64 (s.runIn + (inC.take n).sum) }, inC.drop n) := by
  intro n
  induction n with
  | zero =>
    intro inC s h1 h2 _
    simp [collect, wrap64_of_isInt64 h1, wrap64_of_isInt64 h2]
  | succ n ih =>
    intro inC s _ _ hlen
    cases inC with
    | nil => simp at hlen
    | cons part inC =>
      simp only [List.length_cons, Nat.add_le_add_iff_right] at hlen
      simp only [collect]
      rw [ih inC _ (isInt64_wrap64 _) (isInt64_wrap64 _) hlen]
      simp [wrap64_add_left, add_assoc]

theorem collect_none : ∀ (n : Nat) (inC : List Int) (s : AggState),
    inC.length < n → collect n inC s = none := by
  intro n
  induction n with
  | zero => intro inC s h; simp at h
  | succ n ih =>
    intro inC s hlen
    cases inC with
    | nil => simp [collect]
    | cons part inC =>
      simp only [List.length_cons, Nat.add_lt_add_iff_right] at hlen
      simp only [collect]
      exact ih inC _ hlen

theorem advanceTotal_eq (syncEvery : Int) (parallelism : Nat) (s : AggState) :
    advanceTotal syncEvery parallelism s =
      { s with total := wrap64 (s.total + syncEvery * parallelism),
               runTotal := wrap64 (s.runTotal + syncEvery * parallelism) } := by
  simp [advanceTotal, wrap64_mul_right, wrap64_add_right]

theorem collectPhase_eq (syncEvery : Int) (parallelism : Nat) (inC : List Int) (s : AggState)
    (h1 : isInt64 s.in_) (h2 : isInt64 s.runIn) (hlen : parallelism ≤ inC.length) :
    collectPhase syncEvery parallelism inC s =
      some ({ s with in_ := wrap64 (s.in_ + (inC.take parallelism).sum),
                     total := wrap64 (s.total + syncEvery * parallelism),
                     runIn := wrap64 (s.runIn + (inC.take parallelism).sum),
                     runTotal := wrap64 (s.runTotal + syncEvery * parallelism) },
            inC.drop parallelism) := by
  simp [collectPhase, collect_eq parallelism inC s h1 h2 hlen, advanceTotal_eq]

theorem collectPhase_none (syncEvery : Int) (parallelism : Nat) (inC : List Int) (s : AggState)
    (hlen : inC.length < parallelism) : collectPhase syncEvery parallelism inC s = none := by
  simp [collectPhase, collect_none parallelism inC s hlen]

/-- C3. A single aggregation cycle with `parallelism = N` workers and batch
size `syncEvery`, receiving the `N` batch in-counts `ps` in any arrival order
`qs` (every permutation of the `N` messages), takes the counters
`(in, total, runIn, runTotal)` to
`(in + sum ps, total + syncEvery*N, runIn + sum ps, runTotal + syncEvery*N)`,
the additions being the `int64` additions of the code (`wrap64` of the integer
sums), hence the integer sums themselves whenever these lie in the `int64`
range; exactly the `N` messages are consumed, the rest of the channel is left,
and the result does not depend on the order of the messages. -/
theorem collectPhase_cycle (syncEvery : Int) (N : Nat) (s : AggState) (ps qs rest : List Int)
    (h1 : isInt64 s.in_) (h2 : isInt64 s.runIn) (hlen : ps.length = N) (hperm : qs.Perm ps) :
    collectPhase syncEvery N (qs ++ rest) s =
      some ({ s with in_ := wrap64 (s.in_ + ps.sum),
                     total := wrap64 (s.total + syncEvery * N),
                     runIn := wrap64 (s.runIn + ps.sum),
                     runTotal := wrap64 (s.runTotal + syncEvery * N) }, rest) ∧
    (isInt64 (s.in_ + ps.sum) → isInt64 (s.total + syncEvery * N) →
      isInt64 (s.runIn + ps.sum) → isInt64 (s.runTotal + syncEvery * N) →
      collectPhase syncEvery N (qs ++ rest) s =
        some ({ s with in_ := s.in_ + ps.sum,
                       total := s.total + syncEvery * N,
                       runIn := s.runIn + ps.sum,
                       runTotal := s.runTotal + syncEvery * N }, rest)) ∧
    collectPhase syncEvery N (qs ++ rest) s = collectPhase syncEvery N (ps ++ rest) s := by
  have key : ∀ rs : List Int, rs.Perm ps →
      collectPhase syncEvery N (rs ++ rest) s =
        some ({ s with in_ := wrap64 (s.in_ + ps.sum),
                       total := wrap64 (s.total + syncEvery * N),
                       runIn := wrap64 (s.runIn + ps.sum),
                       runTotal := wrap64 (s.runTotal + syncEvery * N) }, rest) := by
    intro rs hrs
    have hl : rs.length = N := by rw [hrs.length_eq, hlen]
    rw [collectPhase_eq syncEvery N (rs ++ rest) s h1 h2 (by simp [hl])]
    have ht : (rs ++ rest).take N = rs := by rw [← hl]; simp
    have hd : (rs ++ rest).drop N = rest := by rw [← hl]; simp
    rw [ht, hd, hrs.sum_eq]
  refine ⟨key qs hperm, fun a b c d => ?_, ?_⟩
  · rw [key qs hperm, wrap64_of_isInt64 a, wrap64_of_isInt64 b, wrap64_of_isInt64 c,
      wrap64_of_isInt64 d]
  · rw [key qs hperm, key ps (List.Perm.refl ps)]

theorem collectPhase_cycle_witness :
    collectPhase 1000 2 ([420, 400] ++ [7])
        { in_ := 10, total := 20, runIn := 3, runTotal := 4,
          checkpointPi := 2, checkpointTotal := 20, checkpointTime := 0 } =
      some ({ in_ := 10 + 820, total := 20 + 2000, runIn := 3 + 820, runTotal := 4 + 2000,
              checkpointPi := 2, checkpointTotal := 20, checkpointTime := 0 }, [7]) :=
  (collectPhase_cycle 1000 2
    { in_ := 10, total := 20, runIn := 3, runTotal := 4,
      checkpointPi := 2, checkpointTotal := 20, checkpointTime := 0 }
    [400, 420] [420, 400] [7] (by decide) (by decide) rfl
    (List.Perm.swap 400 420 [])).2.1 (by decide) (by decide) (by decide) (by decide)


/-! ## The report phase and the loop -/

theorem pi_eq_piValue (in_ total : Int) : pi in_ total = some (piValue in_ total) :=
  pi_eq in_ total

theorem throughput_eq (total checkpointTotal e : Int) (he : e ≠ 0) :
    throughput total checkpointTotal e =
      some ((wrap64 (total - checkpointTotal) : ℚ) * 1000000 / (e : ℚ)) := by
  have hk : NewRat 1000000 1 = some 1000000 := by simp [NewRat]
  simp only [throughput, NewRat_of_ne he, hk, Option.bind_eq_bind, Option.some_bind]
  congr 1
  ring

theorem throughput_none (total checkpointTotal : Int) :
    throughput total checkpointTotal 0 = none := by
  simp [throughput, NewRat]

theorem deltaPi_eq (p c : ℚ) : deltaPi p c = some (abs (p - c)) := by
  simp [deltaPi, NewRat]

theorem reportPhase_eq (t : Tick) (s : AggState) (he : t.elapsed ≠ 0) :
    reportPhase t s =
      some ({ s with checkpointTime := t.now, checkpointPi := piValue s.in_ s.total,
                     checkpointTotal := s.total },
            { pi := piValue s.in_ s.total,
              deltaPi := abs (piValue s.in_ s.total - s.checkpointPi),
              in_ := s.in_, total := s.total, runIn := s.runIn, runTotal := s.runTotal,
              throughput :=
                (wrap64 (s.total - s.checkpointTotal) : ℚ) * 1000000 / (t.elapsed : ℚ) }) := by
  simp [reportPhase, pi_eq_piValue, throughput_eq _ _ _ he, deltaPi_eq]

theorem reportPhase_none (t : Tick) (s : AggState) (he : t.elapsed = 0) :
    reportPhase t s = none := by
  simp [reportPhase, pi_eq_piValue, he, throughput_none]

/-- What one loop pass does, as a list of facts about its result. -/
theorem loopBody_some (syncEvery : Int) (N : Nat) (t : Tick) (inC : List Int) (s : AggState)
    (h1 : isInt64 s.in_) (h2 : isInt64 s.runIn)
    (s1 : AggState) (inC1 : List Int) (line : Report)
    (h : loopBody syncEvery N t inC s = some (s1, inC1, line)) :
    N ≤ inC.length ∧ t.elapsed ≠ 0 ∧ inC1 = inC.drop N ∧
    s1.in_ = wrap64 (s.in_ + (inC.take N).sum) ∧
    s1.total = wrap64 (s.total + syncEvery * N) ∧
    s1.runIn = wrap64 (s.runIn + (inC.take N).sum) ∧
    s1.runTotal = wrap64 (s.runTotal + syncEvery * N) ∧
    s1.checkpointPi = piValue s1.in_ s1.total ∧
    s1.checkpointTotal = s1.total ∧
    line.pi = piValue s1.in_ s1.total ∧
    line.deltaPi = abs (piValue s1.in_ s1.total - s.checkpointPi) ∧
    line.in_ = s1.in_ ∧ line.total = s1.total ∧
    line.runIn = s1.runIn ∧ line.runTotal = s1.runTotal ∧
    line.throughput =
      (wrap64 (s1.total - s.checkpointTotal) : ℚ) * 1000000 / (t.elapsed : ℚ) := by
  by_cases hlen : N ≤ inC.length
  · by_cases he : t.elapsed = 0
    · simp [loopBody, collectPhase_eq syncEvery N inC s h1 h2 hlen, reportPhase_none _ _ he] at h
    · simp only [loopBody, collectPhase_eq syncEvery N inC s h1 h2 hlen, reportPhase_eq _ _ he,
        Option.bind_eq_bind, Option.some_bind, Option.some.injEq, Prod.mk.injEq] at h
      obtain ⟨rfl, rfl, rfl⟩ := h
      simp [hlen, he]
  · simp [loopBody, collectPhase_none syncEvery N inC s (by omega)] at h

theorem loopBody_isSome (syncEvery : Int) (N : Nat) (t : Tick) (inC : List Int) (s : AggState)
    (h1 : isInt64 s.in_) (h2 : isInt64 s.runIn) (hlen : N ≤ inC.length) (he : t.elapsed ≠ 0) :
    ∃ s1 line, loopBody syncEvery N t inC s = some (s1, inC.drop N, line) := by
  simp [loopBody, collectPhase_eq syncEvery N inC s h1 h2 hlen, reportPhase_eq _ _ he]

theorem take_sum_split (N k : Nat) (inC : List Int) :
    (inC.take (N * (k + 1))).sum = (inC.take N).sum + ((inC.drop N).take (N * k)).sum := by
  have h : N * (k + 1) = N + N * k := by ring
  rw [h, List.take_add, List.sum_append]

/-- What `ticks.length` loop passes do, as a list of facts about the result. -/
theorem loop_some (syncEvery : Int) (N : Nat) :
    ∀ (ticks : List Tick) (inC : List Int) (s : AggState), Int64Counters s →
    ∀ (s1 : AggState) (rest : List Int) (lines : List Report),
    loop syncEvery N ticks inC s = some (s1, rest, lines) →
    N * ticks.length ≤ inC.length ∧ (∀ t ∈ ticks, t.elapsed ≠ 0) ∧
    rest = inC.drop (N * ticks.length) ∧
    s1.in_ = wrap64 (s.in_ + (inC.take (N * ticks.length)).sum) ∧
    s1.total = wrap64 (s.total + syncEvery * N * ticks.length) ∧
    s1.runIn = wrap64 (s.runIn + (inC.take (N * ticks.length)).sum) ∧
    s1.runTotal = wrap64 (s.runTotal + syncEvery * N * ticks.length) ∧
    lines.length = ticks.length ∧
    (∀ l, lines.getLast? = some l →
      l.in_ = s1.in_ ∧ l.total = s1.total ∧ l.runIn = s1.runIn ∧ l.runTotal = s1.runTotal) := by
  intro ticks
  induction ticks with
  | nil =>
    intro inC s hs s1 rest lines h
    obtain ⟨a, b, c, d⟩ := hs
    simp only [loop, Option.some.injEq, Prod.mk.injEq] at h
    obtain ⟨rfl, rfl, rfl⟩ := h
    simp [wrap64_of_isInt64 a, wrap64_of_isInt64 b, wrap64_of_isInt64 c, wrap64_of_isInt64 d]
  | cons t ts ih =>
    intro inC s hs s1 rest lines h
    obtain ⟨a, b, c, d⟩ := hs
    simp only [loop, Option.bind_eq_bind, Option.bind_eq_some] at h
    obtain ⟨⟨sa, inCa, la⟩, hbody, ⟨sb, inCb, lb⟩, hrest, hfin⟩ := h
    simp only [Option.some.injEq, Prod.mk.injEq] at hfin
    obtain ⟨rfl, rfl, rfl⟩ := hfin
    obtain ⟨b1, b2, b3, b4, b5, b6, b7, -, -, -, -, b12, b13, b14, b15, -⟩ :=
      loopBody_some syncEvery N t inC s a c sa inCa la hbody
    have hsa : Int64Counters sa :=
      ⟨b4 ▸ isInt64_wrap64 _, b5 ▸ isInt64_wrap64 _, b6 ▸ isInt64_wrap64 _,
        b7 ▸ isInt64_wrap64 _⟩
    obtain ⟨c1, c2, c3, c4, c5, c6, c7, c8, c9⟩ := ih inCa sa hsa sb inCb lb hrest
    subst b3
    simp only [List.length_drop] at c1
    have hmul : N * (ts.length + 1) = N + N * ts.length := by ring
    refine ⟨?_, ?_, ?_, ?_, ?_, ?_, ?_, ?_, ?_⟩
    · simp only [List.length_cons]; omega
    · intro u hu
      rcases List.mem_cons.mp hu with rfl | hu
      · exact b2
      · exact c2 u hu
    · rw [c3, List.drop_drop, List.length_cons, hmul, add_comm]
    · rw [c4, b4, List.length_cons, take_sum_split, wrap64_add_left, add_assoc]
    · rw [c5, b5, List.length_cons, wrap64_add_left]
      congr 1
      push_cast
      ring
    · rw [c6, b6, List.length_cons, take_sum_split, wrap64_add_left, add_assoc]
    · rw [c7, b7, List.length_cons, wrap64_add_left]
      congr 1
      push_cast
      ring
    · simp [c8]
    · intro l hl
      cases lb with
      | nil =>
        have hts : ts = [] := List.length_eq_zero.mp c8.symm
        subst hts
        simp only [loop, Option.some.injEq, Prod.mk.injEq] at hrest
        obtain ⟨rfl, -, -⟩ := hrest
        simp only [List.getLast?_singleton, Option.some.injEq] at hl
        subst hl
        exact ⟨b12, b13, b14, b15⟩
      | cons m ms =>
        rw [List.getLast?_cons_cons] at hl
        exact c9 l hl

/-- With enough messages on the channel and no zero elapsed time, the loop
passes complete. -/
theorem loop_isSome (syncEvery : Int) (N : Nat) :
    ∀ (ticks : List Tick) (inC : List Int) (s : AggState), Int64Counters s →
    N * ticks.length ≤ inC.length → (∀ t ∈ ticks, t.elapsed ≠ 0) →
    ∃ r, loop syncEvery N ticks inC s = some r := by
  intro ticks
  induction ticks with
  | nil => intro inC s _ _ _; exact ⟨_, rfl⟩
  | cons t ts ih =>
    intro inC s hs hlen he
    obtain ⟨a, -, c, -⟩ := hs
    have hmul : N * (ts.length + 1) = N + N * ts.length := by ring
    simp only [List.length_cons, hmul] at hlen
    obtain ⟨sa, la, hbody⟩ :=
      loopBody_isSome syncEvery N t inC s a c (by omega) (he t (List.mem_cons_self _ _))
    obtain ⟨b1, b2, b3, b4, b5, b6, b7, -⟩ :=
      loopBody_some syncEvery N t inC s a c sa _ la hbody
    have hsa : Int64Counters sa :=
      ⟨b4 ▸ isInt64_wrap64 _, b5 ▸ isInt64_wrap64 _, b6 ▸ isInt64_wrap64 _,
        b7 ▸ isInt64_wrap64 _⟩
    obtain ⟨⟨sb, inCb, lb⟩, hr⟩ := ih (inC.drop N) sa hsa
      (by simp only [List.length_drop]; omega)
      (fun u hu => he u (List.mem_cons_of_mem _ hu))
    exact ⟨(sb, inCb, la :: lb), by simp [loop, hbody, hr]⟩


/-! ## Initialization -/

theorem calcParallelInit_eq (in_ total now : Int) :
    calcParallelInit in_ total now =
      some { in_ := if in_ < 0 then 0 else in_,
             total := if total < 0 then 0 else total,
             runIn := 0, runTotal := 0,
             checkpointPi :=
               piValue (if in_ < 0 then 0 else in_) (if total < 0 then 0 else total),
             checkpointTotal := if total < 0 then 0 else total,
             checkpointTime := now } := by
  simp [calcParallelInit, pi_eq_piValue]

/-- C5 (as stated, refuted). `calcParallel(5, -1)` clamps `total` to `0` and
keeps `in = 5`; its initial checkpoint estimate is `pi(5, 0) = 20`, while
`pi(0, 0) = 0`. -/
theorem calcParallelInit_clamp_counterexample :
    calcParallelInit 5 (-1) 0 =
      some { in_ := 5, total := 0, runIn := 0, runTotal := 0, checkpointPi := 20,
             checkpointTotal := 0, checkpointTime := 0 } ∧
    pi 0 0 = some 0 ∧ pi 5 0 = some 20 ∧ pi 5 0 ≠ pi 0 0 := by
  have h0 : pi 0 0 = some 0 := by rw [pi_eq]; norm_num
  have h5 : pi 5 0 = some 20 := by rw [pi_eq]; norm_num
  refine ⟨?_, h0, h5, ?_⟩
  · rw [calcParallelInit_eq]
    norm_num [piValue]
  · rw [h0, h5]; norm_num

/-- C5 (amended). For every pair `(in, total)` passed to `calcParallel` in
which `in` or `total` is negative, the negative value(s) are clamped to `0`
before use (each on its own, the other value is kept), and the initial
checkpoint estimate is `pi` of the clamped pair: it equals `pi(0, 0) = 0`
whenever `in ≤ 0` (so whenever `in` is negative, or both are), and it is
`4*in` when `in > 0` and `total < 0`. -/
theorem calcParallelInit_clamp (in_ total now : Int) (hneg : in_ < 0 ∨ total < 0) :
    ∃ s, calcParallelInit in_ total now = some s ∧
      s.in_ = max in_ 0 ∧ s.total = max total 0 ∧ s.runIn = 0 ∧ s.runTotal = 0 ∧
      pi s.in_ s.total = some s.checkpointPi ∧ pi 0 0 = some 0 ∧
      (in_ ≤ 0 → some s.checkpointPi = pi 0 0) ∧
      (0 < in_ → s.checkpointPi = 4 * (in_ : ℚ)) := by
  have h0 : pi 0 0 = some 0 := by rw [pi_eq]; norm_num
  refine ⟨_, calcParallelInit_eq in_ total now, ?_, ?_, rfl, rfl, ?_, h0, ?_, ?_⟩
  · simp only; split <;> omega
  · simp only; split <;> omega
  · simp only [pi_eq_piValue]
  · intro hle
    have : (if in_ < 0 then 0 else in_) = 0 := by split <;> omega
    simp only [this, h0, piValue]
    simp
  · intro hpos
    have ht : total < 0 := by omega
    simp only [if_pos ht, if_neg (not_lt.mpr hpos.le), piValue]
    simp

theorem calcParallelInit_clamp_witness :
    ∃ s, calcParallelInit (-3) 7 0 = some s ∧
      s.in_ = max (-3) 0 ∧ s.total = max 7 0 ∧ s.runIn = 0 ∧ s.runTotal = 0 ∧
      pi s.in_ s.total = some s.checkpointPi ∧ pi 0 0 = some 0 ∧
      ((-3 : Int) ≤ 0 → some s.checkpointPi = pi 0 0) ∧
      ((0 : Int) < -3 → s.checkpointPi = 4 * (((-3 : Int)) : ℚ)) :=
  calcParallelInit_clamp (-3) 7 0 (Or.inl (by decide))


/-! ## The counters along a run -/

theorem sum_bounds (m : Int) : ∀ l : List Int, (∀ c ∈ l, 0 ≤ c ∧ c ≤ m) →
    0 ≤ l.sum ∧ l.sum ≤ m * l.length := by
  intro l
  induction l with
  | nil => intro _; simp
  | cons c l ih =>
    intro h
    have hc := h c (List.mem_cons_self _ _)
    have hl := ih (fun d hd => h d (List.mem_cons_of_mem _ hd))
    simp only [List.sum_cons, List.length_cons]
    push_cast
    constructor
    · omega
    · have : m * ((l.length : Int) + 1) = m * l.length + m := by ring
      omega

/-- The counters of a run of `calcParallel` from a non-negative pair: the
`int64` values in closed form. -/
theorem calcParallelWith_some (syncEvery : Int) (N : Nat) (in_ total now : Int)
    (ticks : List Tick) (inC : List Int)
    (h0 : 0 ≤ in_) (h1 : 0 ≤ total) (hi : isInt64 in_) (ht : isInt64 total)
    (s : AggState) (rest : List Int) (lines : List Report)
    (h : calcParallelWith syncEvery N in_ total now ticks inC = some (s, rest, lines)) :
    N * ticks.length ≤ inC.length ∧ (∀ t ∈ ticks, t.elapsed ≠ 0) ∧
    rest = inC.drop (N * ticks.length) ∧
    s.in_ = wrap64 (in_ + (inC.take (N * ticks.length)).sum) ∧
    s.total = wrap64 (total + syncEvery * N * ticks.length) ∧
    s.runIn = wrap64 (inC.take (N * ticks.length)).sum ∧
    s.runTotal = wrap64 (syncEvery * N * ticks.length) ∧
    lines.length = ticks.length ∧
    (∀ l, lines.getLast? = some l →
      l.in_ = s.in_ ∧ l.total = s.total ∧ l.runIn = s.runIn ∧ l.runTotal = s.runTotal) := by
  simp only [calcParallelWith, calcParallelInit_eq, Option.bind_eq_bind, Option.some_bind,
    if_neg (not_lt.mpr h0), if_neg (not_lt.mpr h1)] at h
  have hs := loop_some syncEvery N ticks inC _ ⟨hi, ht, isInt64_zero, isInt64_zero⟩ s rest lines h
  simpa using hs

theorem calcParallelWith_isSome (syncEvery : Int) (N : Nat) (in_ total now : Int)
    (ticks : List Tick) (inC : List Int)
    (h0 : 0 ≤ in_) (h1 : 0 ≤ total) (hi : isInt64 in_) (ht : isInt64 total)
    (hlen : N * ticks.length ≤ inC.length) (he : ∀ t ∈ ticks, t.elapsed ≠ 0) :
    ∃ r, calcParallelWith syncEvery N in_ total now ticks inC = some r := by
  simp only [calcParallelWith, calcParallelInit_eq, Option.bind_eq_bind, Option.some_bind,
    if_neg (not_lt.mpr h0), if_neg (not_lt.mpr h1)]
  exact loop_isSome syncEvery N ticks inC _ ⟨hi, ht, isInt64_zero, isInt64_zero⟩ hlen he

/-- The invariant at the end of a run, with the exact values of the counters. -/
theorem countsOk_of_run (syncEvery : Int) (N : Nat) (in_ total now : Int)
    (ticks : List Tick) (inC : List Int)
    (h0 : 0 ≤ in_) (h1 : in_ ≤ total) (hs : 0 ≤ syncEvery)
    (hb : ∀ c ∈ inC.take (N * ticks.length), 0 ≤ c ∧ c ≤ syncEvery)
    (hov : total + syncEvery * N * ticks.length ≤ 9223372036854775807)
    (s : AggState) (rest : List Int) (lines : List Report)
    (h : calcParallelWith syncEvery N in_ total now ticks inC = some (s, rest, lines)) :
    CountsOk s ∧
    s.in_ = in_ + (inC.take (N * ticks.length)).sum ∧
    s.total = total + syncEvery * N * ticks.length ∧
    s.runIn = (inC.take (N * ticks.length)).sum ∧
    s.runTotal = syncEvery * N * ticks.length := by
  have hk : 0 ≤ syncEvery * N * ticks.length := by positivity
  have hi : isInt64 in_ := by unfold isInt64; omega
  have ht : isInt64 total := by unfold isInt64; omega
  obtain ⟨a1, -, -, a4, a5, a6, a7, -, -⟩ :=
    calcParallelWith_some syncEvery N in_ total now ticks inC h0 (by omega) hi ht s rest lines h
  obtain ⟨b1, b2⟩ := sum_bounds syncEvery _ hb
  have hl : ((inC.take (N * ticks.length)).length : Int) = N * ticks.length := by
    rw [List.length_take, Nat.min_eq_left a1]; push_cast; rfl
  rw [hl, ← mul_assoc] at b2
  rw [wrap64_of_isInt64 (by unfold isInt64; omega)] at a4 a5 a6 a7
  refine ⟨⟨?_, ?_, ?_, ?_⟩, a4, a5, a6, a7⟩ <;> omega


theorem wrap64_sub_right (a b : Int) : wrap64 (a - wrap64 b) = wrap64 (a - b) := by
  unfold wrap64; exact Int.sub_bmod_bmod

theorem sumPreviousIterations_table :
    sumPreviousIterations previousIterations = some (815086638192, 1037800000000) := by
  decide

/-- C6. Reachable-state invariant of the aggregator. For every starting pair
with `0 ≤ in ≤ total`, every batch size `syncEvery ≥ 0`, every number `N` of
workers and every run of `ticks.length` aggregation cycles in which each
received batch count lies in `[0, syncEvery]` and which stays below `int64`
overflow (`total + syncEvery*N*cycles ≤ 2^63 - 1`), the state after the first
`k` cycles, for every `k` (`k = 0` is the initialization), satisfies
`0 ≤ in ≤ total` and `0 ≤ runIn ≤ runTotal`, the counters being the exact
integer sums; with `N` messages per cycle on the channel and non-zero elapsed
times those states exist. The pair `main` starts from is the sum of the
compiled-in table, `(815086638192, 1037800000000)`: it is the exact sum of the
entries, no partial sum leaves the `int64` range, and `0 ≤ in ≤ total`. -/
theorem aggregator_invariant (syncEvery : Int) (N : Nat) (in_ total now : Int)
    (ticks : List Tick) (inC : List Int)
    (h0 : 0 ≤ in_) (h1 : in_ ≤ total) (hs : 0 ≤ syncEvery)
    (hb : ∀ c ∈ inC.take (N * ticks.length), 0 ≤ c ∧ c ≤ syncEvery)
    (hov : total + syncEvery * N * ticks.length ≤ 9223372036854775807) :
    (∀ (k : Nat) (s : AggState) (rest : List Int) (lines : List Report),
      calcParallelWith syncEvery N in_ total now (ticks.take k) inC = some (s, rest, lines) →
      CountsOk s ∧
      s.in_ = in_ + (inC.take (N * (ticks.take k).length)).sum ∧
      s.total = total + syncEvery * N * (ticks.take k).length ∧
      s.runIn = (inC.take (N * (ticks.take k).length)).sum ∧
      s.runTotal = syncEvery * N * (ticks.take k).length) ∧
    (N * ticks.length ≤ inC.length → (∀ t ∈ ticks, t.elapsed ≠ 0) →
      ∀ k : Nat, ∃ s rest lines,
        calcParallelWith syncEvery N in_ total now (ticks.take k) inC = some (s, rest, lines) ∧
        CountsOk s) ∧
    sumPreviousIterations previousIterations = some (815086638192, 1037800000000) ∧
    (previousIterations.map (fun item => item.getD 0 0)).sum = 815086638192 ∧
    (previousIterations.map (fun item => item.getD 1 0)).sum = 1037800000000 ∧
    (∀ k : Nat, k ≤ previousIterations.length →
      isInt64 ((previousIterations.take k).map (fun item => item.getD 0 0)).sum ∧
      isInt64 ((previousIterations.take k).map (fun item => item.getD 1 0)).sum) ∧
    (0 : Int) ≤ 815086638192 ∧ (815086638192 : Int) ≤ 1037800000000 ∧
    (∀ (P : Nat) (t0 : Int) (tk : List Tick) (ch : List Int),
      main P t0 tk ch = calcParallelWith 100000000 P 815086638192 1037800000000 t0 tk ch) := by
  have hlenN : ∀ k : Nat, (ticks.take k).length ≤ ticks.length := by
    intro k
    rw [List.length_take]
    exact Nat.min_le_right _ _
  have hlen : ∀ k : Nat, ((ticks.take k).length : Int) ≤ ticks.length := by
    intro k
    exact_mod_cast hlenN k
  have hsN : 0 ≤ syncEvery * N := by positivity
  have hb2 : ∀ k : Nat, ∀ c ∈ inC.take (N * (ticks.take k).length), 0 ≤ c ∧ c ≤ syncEvery := by
    intro k c hc
    exact hb c (List.take_subset_take_left inC
      (Nat.mul_le_mul_left N (hlenN k)) hc)
  have hov2 : ∀ k : Nat,
      total + syncEvery * N * (ticks.take k).length ≤ 9223372036854775807 := by
    intro k
    have := mul_le_mul_of_nonneg_left (hlen k) hsN
    omega
  have main1 : ∀ (k : Nat) (s : AggState) (rest : List Int) (lines : List Report),
      calcParallelWith syncEvery N in_ total now (ticks.take k) inC = some (s, rest, lines) →
      CountsOk s ∧
      s.in_ = in_ + (inC.take (N * (ticks.take k).length)).sum ∧
      s.total = total + syncEvery * N * (ticks.take k).length ∧
      s.runIn = (inC.take (N * (ticks.take k).length)).sum ∧
      s.runTotal = syncEvery * N * (ticks.take k).length := fun k s rest lines h =>
    countsOk_of_run syncEvery N in_ total now (ticks.take k) inC h0 h1 hs (hb2 k) (hov2 k)
      s rest lines h
  refine ⟨main1, ?_, sumPreviousIterations_table, by decide, by decide, by decide, by decide,
    by decide, ?_⟩
  · intro hl he k
    have hk : 0 ≤ syncEvery * N * ticks.length := by positivity
    obtain ⟨⟨s, rest, lines⟩, hr⟩ :=
      calcParallelWith_isSome syncEvery N in_ total now (ticks.take k) inC h0 (by omega)
        (by unfold isInt64; omega) (by unfold isInt64; omega)
        (le_trans (Nat.mul_le_mul_left N (hlenN k)) hl)
        (fun t ht => he t (List.mem_of_mem_take ht))
    exact ⟨s, rest, lines, hr, (main1 k s rest lines hr).1⟩
  · intro P t0 tk ch
    simp [main, sumPreviousIterations_table, calcParallel]

theorem aggregator_invariant_witness :
    ∃ s rest lines,
      calcParallelWith 1000 2 3 8 0 (([⟨5, 1⟩, ⟨6, 2⟩] : List Tick).take 2)
        [400, 420, 10, 20, 77] = some (s, rest, lines) ∧ CountsOk s :=
  (aggregator_invariant 1000 2 3 8 0 [⟨5, 1⟩, ⟨6, 2⟩] [400, 420, 10, 20, 77]
    (by decide) (by decide) (by decide) (by decide) (by decide)).2.1
    (by decide) (by decide) 2

/-- C7. Resumability round trip. For every Prior Run Record whose summed `in`
and `total` are non-negative and every run of `ticks.length ≥ 0` aggregation
cycles started from the seed `sumPreviousIterations(record)`: appending the
this-run pair `(runIn, runTotal)` of the final state, which is the pair of the
last line printed, to the record and summing again yields exactly the
cumulative pair `(in, total)` of that state and line; equivalently the `int64`
differences `in - runIn` and `total - runTotal` are the seed after every
cycle. With `N` messages per cycle on the channel and non-zero elapsed times
the run completes. -/
theorem resume_round_trip (record : List (Int × Int)) (in0 total0 : Int)
    (syncEvery : Int) (N : Nat) (now : Int) (ticks : List Tick) (inC : List Int)
    (hseed : sumPreviousIterations (ofPairs record) = some (in0, total0))
    (h0 : 0 ≤ in0) (h1 : 0 ≤ total0) :
    (N * ticks.length ≤ inC.length → (∀ t ∈ ticks, t.elapsed ≠ 0) →
      ∃ r, calcParallelWith syncEvery N in0 total0 now ticks inC = some r) ∧
    ∀ (s : AggState) (rest : List Int) (lines : List Report),
      calcParallelWith syncEvery N in0 total0 now ticks inC = some (s, rest, lines) →
      sumPreviousIterations (ofPairs (record ++ [(s.runIn, s.runTotal)])) =
        some (s.in_, s.total) ∧
      wrap64 (s.in_ - s.runIn) = in0 ∧ wrap64 (s.total - s.runTotal) = total0 ∧
      (isInt64 (s.in_ - s.runIn) → s.in_ - s.runIn = in0) ∧
      (isInt64 (s.total - s.runTotal) → s.total - s.runTotal = total0) ∧
      (∀ l, lines.getLast? = some l →
        sumPreviousIterations (ofPairs (record ++ [(l.runIn, l.runTotal)])) =
          some (l.in_, l.total)) := by
  rw [sumPreviousIterations_ofPairs] at hseed
  simp only [Option.some.injEq, Prod.mk.injEq] at hseed
  obtain ⟨e1, e2⟩ := hseed
  have hi : isInt64 in0 := e1 ▸ isInt64_wrap64 _
  have ht : isInt64 total0 := e2 ▸ isInt64_wrap64 _
  refine ⟨fun hl he =>
    calcParallelWith_isSome syncEvery N in0 total0 now ticks inC h0 h1 hi ht hl he, ?_⟩
  intro s rest lines h
  obtain ⟨-, -, -, a4, a5, a6, a7, -, a9⟩ :=
    calcParallelWith_some syncEvery N in0 total0 now ticks inC h0 h1 hi ht s rest lines h
  have hsum : sumPreviousIterations (ofPairs (record ++ [(s.runIn, s.runTotal)])) =
      some (s.in_, s.total) := by
    rw [sumPreviousIterations_ofPairs]
    simp only [List.map_append, List.map_cons, List.map_nil, List.sum_append, List.sum_cons,
      List.sum_nil, add_zero]
    rw [a4, a5, a6, a7, ← e1, ← e2]
    simp only [wrap64_add_left, wrap64_add_right]
  have hd1 : wrap64 (s.in_ - s.runIn) = in0 := by
    rw [a4, a6, wrap64_sub_right, wrap64_sub_left, add_sub_cancel_right, wrap64_of_isInt64 hi]
  have hd2 : wrap64 (s.total - s.runTotal) = total0 := by
    rw [a5, a7, wrap64_sub_right, wrap64_sub_left, add_sub_cancel_right, wrap64_of_isInt64 ht]
  refine ⟨hsum, hd1, hd2, fun hr => ?_, fun hr => ?_, ?_⟩
  · rw [← hd1, wrap64_of_isInt64 hr]
  · rw [← hd2, wrap64_of_isInt64 hr]
  · intro l hl
    obtain ⟨c1, c2, c3, c4⟩ := a9 l hl
    rw [c1, c2, c3, c4]
    exact hsum


theorem resume_round_trip_witness :
    ∃ s rest lines,
      calcParallelWith 1000 2 3 8 0 [⟨5, 1⟩, ⟨6, 2⟩] [400, 420, 10, 20, 77] =
        some (s, rest, lines) ∧
      sumPreviousIterations (ofPairs ([(2, 4), (1, 4)] ++ [(s.runIn, s.runTotal)])) =
        some (s.in_, s.total) := by
  obtain ⟨⟨s, rest, lines⟩, h⟩ :=
    (resume_round_trip [(2, 4), (1, 4)] 3 8 1000 2 0 [⟨5, 1⟩, ⟨6, 2⟩] [400, 420, 10, 20, 77]
      (by decide) (by decide) (by decide)).1 (by decide) (by decide)
  exact ⟨s, rest, lines, h,
    ((resume_round_trip [(2, 4), (1, 4)] 3 8 1000 2 0 [⟨5, 1⟩, ⟨6, 2⟩] [400, 420, 10, 20, 77]
      (by decide) (by decide) (by decide)).2 s rest lines h).1⟩

/-! ## Throughput and delta -/

/-- C9. For every elapsed time of `e > 0` nanoseconds since the last
checkpoint and every non-negative total increment `d = total - checkpointTotal`
(the `int64` difference the code computes, which is the integer difference
whenever that lies in the `int64` range), the throughput computed in the
report phase is the exact rational `d * 1000000 / e`; it is non-negative and
equals the number of samples per second, `d / (e / 10^9)`, divided by `1000`.
The report phase prints this value. -/
theorem throughput_exact (total checkpointTotal e : Int)
    (he : 0 < e) (hd : 0 ≤ wrap64 (total - checkpointTotal)) :
    throughput total checkpointTotal e =
      some ((wrap64 (total - checkpointTotal) : ℚ) * 1000000 / (e : ℚ)) ∧
    (0 : ℚ) ≤ (wrap64 (total - checkpointTotal) : ℚ) * 1000000 / (e : ℚ) ∧
    (wrap64 (total - checkpointTotal) : ℚ) * 1000000 / (e : ℚ) =
      ((wrap64 (total - checkpointTotal) : ℚ) / ((e : ℚ) / 1000000000)) / 1000 ∧
    (isInt64 (total - checkpointTotal) →
      wrap64 (total - checkpointTotal) = total - checkpointTotal) ∧
    (∀ (now : Int) (s s1 : AggState) (line : Report),
      s.total = total → s.checkpointTotal = checkpointTotal →
      reportPhase ⟨e, now⟩ s = some (s1, line) →
      line.throughput = (wrap64 (total - checkpointTotal) : ℚ) * 1000000 / (e : ℚ)) := by
  have he0 : e ≠ 0 := by omega
  have heq : (0 : ℚ) < (e : ℚ) := by exact_mod_cast he
  have hdq : (0 : ℚ) ≤ (wrap64 (total - checkpointTotal) : ℚ) := by exact_mod_cast hd
  refine ⟨throughput_eq total checkpointTotal e he0, by positivity, ?_,
    fun h => wrap64_of_isInt64 h, ?_⟩
  · field_simp
    ring
  · intro now s s1 line h1 h2 h
    rw [reportPhase_eq _ _ (by simpa using he0)] at h
    simp only [Option.some.injEq, Prod.mk.injEq] at h
    obtain ⟨-, rfl⟩ := h
    simp [h1, h2]

theorem throughput_exact_witness :
    throughput 5000 3000 4 = some ((wrap64 (5000 - 3000) : ℚ) * 1000000 / ((4 : Int) : ℚ)) :=
  (throughput_exact 5000 3000 4 (by decide) (by decide)).1

theorem piValue_diff_lt (k : Int) (ε : ℚ) (hk : 0 < k) (hε : 0 < ε)
    (total in_ p : Int) (hT : max 1 ⌈4 * (k : ℚ) / ε⌉ ≤ total)
    (hi0 : 0 ≤ in_) (hi1 : in_ ≤ total) (hp0 : 0 ≤ p) (hp1 : p ≤ k) :
    abs (piValue (in_ + p) (total + k) - piValue in_ total) < ε := by
  have ht1 : 1 ≤ total := le_trans (le_max_left _ _) hT
  have htc : ⌈4 * (k : ℚ) / ε⌉ ≤ total := le_trans (le_max_right _ _) hT
  have htq : 4 * (k : ℚ) / ε ≤ (total : ℚ) := Int.ceil_le.mp htc
  have hK : (0 : ℚ) < (k : ℚ) := by exact_mod_cast hk
  have ht : (0 : ℚ) < (total : ℚ) := by exact_mod_cast (by omega : (0 : Int) < total)
  have hi0q : (0 : ℚ) ≤ (in_ : ℚ) := by exact_mod_cast hi0
  have hi1q : (in_ : ℚ) ≤ (total : ℚ) := by exact_mod_cast hi1
  have hp0q : (0 : ℚ) ≤ (p : ℚ) := by exact_mod_cast hp0
  have hp1q : (p : ℚ) ≤ (k : ℚ) := by exact_mod_cast hp1
  have h4 : 4 * (k : ℚ) ≤ ε * (total : ℚ) := by
    rw [div_le_iff₀ hε] at htq
    linarith
  have e1 : piValue (in_ + p) (total + k) - piValue in_ total =
      4 * ((p : ℚ) * total - in_ * k) / ((total : ℚ) * (total + k)) := by
    unfold piValue
    rw [if_neg (by omega), if_neg (by omega)]
    push_cast
    field_simp
    ring
  have hden : (0 : ℚ) < (total : ℚ) * (total + k) := by positivity
  have m1 : (p : ℚ) * total ≤ k * total := mul_le_mul_of_nonneg_right hp1q ht.le
  have m2 : (in_ : ℚ) * k ≤ total * k := mul_le_mul_of_nonneg_right hi1q hK.le
  have m3 : (0 : ℚ) ≤ (p : ℚ) * total := mul_nonneg hp0q ht.le
  have m4 : (0 : ℚ) ≤ (in_ : ℚ) * k := mul_nonneg hi0q hK.le
  have m5 : 4 * (k : ℚ) * total ≤ ε * total * total := mul_le_mul_of_nonneg_right h4 ht.le
  have m6 : (0 : ℚ) < ε * total * k := by positivity
  rw [e1, abs_lt]
  constructor
  · rw [lt_div_iff₀ hden]
    nlinarith
  · rw [div_lt_iff₀ hden]
    nlinarith

/-- C8. The delta reported between two consecutive checkpoints is the exact
rational `|pi(in', total') - pi(in, total)|`, where `(in, total)` is the pair
at the previous checkpoint (the state at the head of the loop, first the one
`calcParallel` initializes) and `(in', total')` the pair after the cycle; it
is non-negative, and the state after the cycle is again at a checkpoint. For a
fixed increment size `k > 0` the delta approaches `0` as `total` grows: for
every `ε > 0` there is a `T` such that for every `total ≥ T`, every `in` with
`0 ≤ in ≤ total` and every batch sum `p` with `0 ≤ p ≤ k`, both estimates are
defined and `|pi(in + p, total + k) - pi(in, total)| < ε`. -/
theorem deltaPi_consecutive (k : Int) (ε : ℚ) (hk : 0 < k) (hε : 0 < ε) :
    (∃ T : Int, ∀ total : Int, T ≤ total → ∀ in_ : Int, 0 ≤ in_ → in_ ≤ total →
      ∀ p : Int, 0 ≤ p → p ≤ k →
      ∃ a b : ℚ, pi (in_ + p) (total + k) = some a ∧ pi in_ total = some b ∧
        abs (a - b) < ε) ∧
    (∀ (syncEvery : Int) (N : Nat) (t : Tick) (inC : List Int) (s s1 : AggState)
      (inC1 : List Int) (line : Report),
      isInt64 s.in_ → isInt64 s.runIn → AtCheckpoint s →
      loopBody syncEvery N t inC s = some (s1, inC1, line) →
      ∃ a b : ℚ, pi s1.in_ s1.total = some a ∧ pi s.in_ s.total = some b ∧
        line.pi = a ∧ line.deltaPi = abs (a - b) ∧ 0 ≤ line.deltaPi ∧ AtCheckpoint s1) ∧
    (∀ (in_ total now : Int) (s : AggState),
      calcParallelInit in_ total now = some s → AtCheckpoint s) := by
  refine ⟨⟨max 1 ⌈4 * (k : ℚ) / ε⌉, ?_⟩, ?_, ?_⟩
  · intro total hT in_ hi0 hi1 p hp0 hp1
    exact ⟨_, _, pi_eq_piValue _ _, pi_eq_piValue _ _,
      piValue_diff_lt k ε hk hε total in_ p hT hi0 hi1 hp0 hp1⟩
  · intro syncEvery N t inC s s1 inC1 line h1 h2 hc h
    obtain ⟨-, -, -, -, -, -, -, b8, -, b10, b11, -⟩ :=
      loopBody_some syncEvery N t inC s h1 h2 s1 inC1 line h
    unfold AtCheckpoint at hc
    rw [pi_eq_piValue] at hc
    simp only [Option.some.injEq] at hc
    refine ⟨_, _, pi_eq_piValue _ _, pi_eq_piValue _ _, b10, ?_, ?_, ?_⟩
    · rw [b11, hc]
    · rw [b11]; exact abs_nonneg _
    · unfold AtCheckpoint
      rw [pi_eq_piValue, b8]
  · intro in_ total now s h
    rw [calcParallelInit_eq] at h
    simp only [Option.some.injEq] at h
    subst h
    exact pi_eq_piValue _ _

theorem deltaPi_consecutive_witness :
    ∃ T : Int, ∀ total : Int, T ≤ total → ∀ in_ : Int, 0 ≤ in_ → in_ ≤ total →
      ∀ p : Int, 0 ≤ p → p ≤ 2000 →
      ∃ a b : ℚ, pi (in_ + p) (total + 2000) = some a ∧ pi in_ total = some b ∧
        abs (a - b) < 1 / 1000 :=
  (deltaPi_consecutive 2000 (1 / 1000) (by decide) (by norm_num)).1


/-! ## `float64` rounding -/

end Pi
